import Mathlib

/-!
Shallow embedding of the waveform post-processing core of the
LTspice-automation repository and proofs about it.

Embedded components:
* the window statistics engine `compute_vpp` (src/measurements.py);
* the transient characterization engine, i.e. the slew-rate and
  settling-time computation of `run_simulation`
  (src/pyltspicetest1.py, lines 226-291);
* the spectral analysis engine, i.e. the FFT computation of
  `show_fft` (src/gui_runtime.py, lines 298-365).

Modelling conventions: voltages, times and frequencies are exact
rationals (the float algorithms, read over the reals); a Python float
NaN sentinel for an individual metric is `none`; a hard failure (a
Python exception) is an outer `none`.  Rational division by zero is
zero in Lean; on every path a theorem traverses the relevant
denominator is either nonzero or the numerator is zero as well, as
noted near each use.  The transcendental stages of the spectral
engine (Hann window, rFFT, log magnitude) are embedded over `ℝ`/`ℂ`.
-/

namespace LTspice

/-! ## Window statistics engine (src/measurements.py, compute_vpp) -/

/-- First (x, y) pair attaining the maximum y, mirroring
`int(np.argmax(y_sel))` (first occurrence on ties) paired with the
corresponding `x_sel` entry. -/

def argmaxPair : List (ℚ × ℚ) → Option (ℚ × ℚ)
  | [] => none
  | p :: rest =>
    match argmaxPair rest with
    | none => some p
    | some m => if p.2 < m.2 then some m else some p

/-- First (x, y) pair attaining the minimum y, mirroring
`int(np.argmin(y_sel))` (first occurrence on ties). -/

def argminPair : List (ℚ × ℚ) → Option (ℚ × ℚ)
  | [] => none
  | p :: rest =>
    match argminPair rest with
    | none => some p
    | some m => if m.2 < p.2 then some m else some p

/-- Normalized lower window bound: `start, end = xlim; if start > end:
start, end = end, start` (measurements.py lines 10-12). -/

def windowStart (xlim : ℚ × ℚ) : ℚ := if xlim.2 < xlim.1 then xlim.2 else xlim.1

/-- Normalized upper window bound (measurements.py lines 10-12). -/

def windowStop (xlim : ℚ × ℚ) : ℚ := if xlim.2 < xlim.1 then xlim.1 else xlim.2

/-- The samples selected by `mask = (x_data >= start) & (x_data <= end)`
applied to the paired trace (measurements.py lines 13, 17-18).  The
Python code indexes `x_data` and `y_data` with the same boolean mask,
which is meaningful for the equal-length paired traces every caller
supplies; the zip realises exactly that pairing. -/

def windowSel (x_data y_data : List ℚ) (xlim : ℚ × ℚ) : List (ℚ × ℚ) :=
  (x_data.zip y_data).filter
    (fun p => decide (windowStart xlim ≤ p.1) && decide (p.1 ≤ windowStop xlim))

/-- `compute_vpp(x_data, xlim, y_data)` (measurements.py lines 5-28):
returns `(v_max - v_min, t_max, v_max, t_min, v_min)`, or `none` for the
`ValueError("No points in range")` raised when no sample falls in the
normalized window. -/

def compute_vpp (x_data : List ℚ) (xlim : ℚ × ℚ) (y_data : List ℚ) :
    Option (ℚ × ℚ × ℚ × ℚ × ℚ) :=
  match argmaxPair (windowSel x_data y_data xlim), argminPair (windowSel x_data y_data xlim) with
  | some mx, some mn => some (mx.2 - mn.2, mx.1, mx.2, mn.1, mn.2)
  | _, _ => none

/-! ## Transient characterization engine
(src/pyltspicetest1.py, lines 226-291) -/

/-- Two-point `np.interp(x, [x0, x1], [f0, f1])` for a bracketed query
`x0 <= x <= x1`.  When the two breakpoints coincide numpy's binary
search lands on the right endpoint and returns `f1`; otherwise the
result is the linear interpolant (numpy also special-cases `x = x0`,
which agrees with the formula). -/

def interp2 (x x0 x1 f0 f1 : ℚ) : ℚ :=
  if x0 = x1 then f1 else f0 + (x - x0) * (f1 - f0) / (x1 - x0)

/-- `arr.min()` on a numpy array; the Python call raises on an empty
array, callers below guard for that (the default 0 is never exposed). -/

def minList : List ℚ → ℚ
  | [] => 0
  | [a] => a
  | a :: b :: t => min a (minList (b :: t))

/-- `arr.max()` on a numpy array (same guard as `minList`). -/

def maxList : List ℚ → ℚ
  | [] => 0
  | [a] => a
  | a :: b :: t => max a (maxList (b :: t))

/-- `np.max(np.abs(arr))`. -/

def maxAbsList (l : List ℚ) : ℚ := maxList (l.map (fun a => |a|))

/-- Fuelled forward scan for the first index `i` with `start <= i < bound`
satisfying `p`; this is the shape of every `for i in range(...)` search
loop of the transient engine (with `break` on first hit). -/

def scanFirst (p : Nat → Bool) (bound : Nat) : Nat → Nat → Option Nat
  | 0, _ => none
  | fuel + 1, i =>
    if i < bound then (if p i then some i else scanFirst p bound fuel (i + 1)) else none

/-- Rising-edge crossing condition
`v_arr[i] <= thr and v_arr[i+1] >= thr` (pyltspicetest1.py lines 241,
244, 253, 259). -/

def crossCondB (v : List ℚ) (thr : ℚ) (i : Nat) : Bool :=
  decide (v.getD i 0 ≤ thr) && decide (thr ≤ v.getD (i + 1) 0)

/-- First rising-edge crossing of `thr` scanning sample pairs `(i, i+1)`
from index `start` (the `for i in range(...)`/`for j in range(start_idx,
len(v_arr) - 1)` loops), returning the index and the
linearly-interpolated crossing time
`np.interp(thr, v_arr[i:i+2], time_arr[i:i+2])`. -/

def findCross (v t : List ℚ) (thr : ℚ) (start : Nat) : Option (Nat × ℚ) :=
  (scanFirst (crossCondB v thr) (v.length - 1) (v.length - start) start).map
    (fun i => (i, interp2 thr (v.getD i 0) (v.getD (i + 1) 0) (t.getD i 0) (t.getD (i + 1) 0)))

/-- Entry `i` of `np.gradient(v, t)` with default `edge_order=1`:
one-sided differences at the two ends, the second-order non-uniform
central formula in the interior. -/

def gradAt (v t : List ℚ) (i : Nat) : ℚ :=
  if i = 0 then (v.getD 1 0 - v.getD 0 0) / (t.getD 1 0 - t.getD 0 0)
  else if i = v.length - 1 then
    (v.getD i 0 - v.getD (i - 1) 0) / (t.getD i 0 - t.getD (i - 1) 0)
  else
    (((t.getD i 0 - t.getD (i - 1) 0) ^ 2) * v.getD (i + 1) 0 +
        (((t.getD (i + 1) 0 - t.getD i 0) ^ 2) - ((t.getD i 0 - t.getD (i - 1) 0) ^ 2)) * v.getD i 0 -
        ((t.getD (i + 1) 0 - t.getD i 0) ^ 2) * v.getD (i - 1) 0) /
      ((t.getD i 0 - t.getD (i - 1) 0) * (t.getD (i + 1) 0 - t.getD i 0) *
        ((t.getD (i + 1) 0 - t.getD i 0) + (t.getD i 0 - t.getD (i - 1) 0)))

/-- `np.gradient(v_arr, time_arr)` (pyltspicetest1.py line 276). -/

def npGradient (v t : List ℚ) : List ℚ := (List.range v.length).map (gradAt v t)

/-- Settling condition at index k:
`time_arr[k] >= t_90 and np.all(np.abs(grad[k:k+5]) < thresh)`
(pyltspicetest1.py line 281), the slice clipped at the array end. -/

def settleCondB (tArr grad : List ℚ) (thresh t90 : ℚ) (k : Nat) : Bool :=
  decide (t90 ≤ tArr.getD k 0) && ((grad.drop k).take 5).all (fun g => decide (|g| < thresh))

/-- The same condition as a proposition. -/

def settleCond (tArr grad : List ℚ) (thresh t90 : ℚ) (k : Nat) : Prop :=
  t90 ≤ tArr.getD k 0 ∧ ∀ g ∈ (grad.drop k).take 5, |g| < thresh

/-- The settling scan `for k in range(len(time_arr)): ... break`
(pyltspicetest1.py lines 280-283), yielding `time_arr[k] - t_90`. -/

def settlingSearch (tArr grad : List ℚ) (thresh t90 : ℚ) : Option ℚ :=
  (scanFirst (settleCondB tArr grad thresh t90) tArr.length tArr.length 0).map
    (fun k => tArr.getD k 0 - t90)

/-- `v_low = float(v_arr.min())` (line 229). -/

def vLow (v : List ℚ) : ℚ := minList v

/-- `v_high = float(v_arr.max())` (line 230). -/

def vHigh (v : List ℚ) : ℚ := maxList v

/-- `swing = v_high - v_low` (line 231). -/

def swingQ (v : List ℚ) : ℚ := vHigh v - vLow v

/-- Threshold voltage `v_low + p * swing` (lines 232-235, with p one of
0.1, 0.9, 0.2, 0.8). -/

def vThresh (v : List ℚ) (p : ℚ) : ℚ := vLow v + p * swingQ v

/-- First crossing of the lower threshold, scanned from index 0 (the
`t_10`/`t_20` search of lines 238-248). -/

def crossLow (t v : List ℚ) (p : ℚ) : Option (Nat × ℚ) := findCross v t (vThresh v p) 0

/-- Second-crossing search: the upper threshold is scanned starting at
the index where the lower crossing was found (lines 250-261); undefined
whenever the lower crossing is undefined. -/

def crossHigh (t v : List ℚ) (plow phigh : ℚ) : Option (Nat × ℚ) :=
  match crossLow t v plow with
  | none => none
  | some (i, _) => findCross v t (vThresh v phigh) i

/-- Slew rate between the two crossings,
`(v_high_thr - v_low_thr) / (t_high - t_low)` guarded by
`t_high > t_low`, NaN (`none`) otherwise (lines 263-271). -/

def srPair (t v : List ℚ) (plow phigh : ℚ) : Option ℚ :=
  match crossLow t v plow, crossHigh t v plow phigh with
  | some (_, tl), some (_, th) =>
      if tl < th then some ((vThresh v phigh - vThresh v plow) / (th - tl)) else none
  | _, _ => none

/-- The `t_10` crossing (threshold `v_low + 0.1 * swing`). -/

def cross10 (t v : List ℚ) : Option (Nat × ℚ) := crossLow t v (1/10)

/-- The `t_20` crossing (threshold `v_low + 0.2 * swing`). -/

def cross20 (t v : List ℚ) : Option (Nat × ℚ) := crossLow t v (2/10)

/-- The `t_90` crossing, resumed from the `t_10` index. -/

def cross90 (t v : List ℚ) : Option (Nat × ℚ) := crossHigh t v (1/10) (9/10)

/-- The `t_80` crossing, resumed from the `t_20` index. -/

def cross80 (t v : List ℚ) : Option (Nat × ℚ) := crossHigh t v (2/10) (8/10)

/-- `slew_rate_90_10` (lines 263-266). -/

def sr9010 (t v : List ℚ) : Option ℚ := srPair t v (1/10) (9/10)

/-- `slew_rate_80_20` (lines 268-271). -/

def sr8020 (t v : List ℚ) : Option ℚ := srPair t v (2/10) (8/10)

/-- `settling_time` (lines 273-283): NaN unless `t_90` was found and the
maximum absolute gradient is positive, else the first scan hit of the
derivative-threshold window. -/

def settlingTime (t v : List ℚ) : Option ℚ :=
  match cross90 t v with
  | none => none
  | some (_, t90) =>
    if 0 < maxAbsList (npGradient v t) then
      settlingSearch t (npGradient v t) ((1/100) * maxAbsList (npGradient v t)) t90
    else none

/-- The transient metric computation of `run_simulation`
(pyltspicetest1.py lines 226-291): on an empty voltage trace
`v_arr.min()` raises (outer `none`); otherwise the triple
`(slew_rate_90_10, slew_rate_80_20, settling_time)` is returned, each
entry NaN (`none`) when its crossing or settling window is not found. -/

def transient_metrics (time_arr v_arr : List ℚ) :
    Option (Option ℚ × Option ℚ × Option ℚ) :=
  if v_arr.isEmpty then none
  else some (sr9010 time_arr v_arr, sr8020 time_arr v_arr, settlingTime time_arr v_arr)

/-! ## Spectral analysis engine (src/gui_runtime.py, show_fft,
lines 298-365).  The rational stages are computable; the stages that
involve the Hann window, the rFFT and the log magnitude are embedded
over the reals and complexes. -/

/-- Index of the interpolation interval for `np.interp`: the largest
index j with xp[j] <= x (for the sorted xp every caller passes). -/

def interpSearch (xp : List ℚ) (x : ℚ) : Nat :=
  (xp.filter (fun a => decide (a ≤ x))).length - 1

/-- Pointwise `np.interp(x, xp, fp)`: clamp outside the xp range,
otherwise linear interpolation on the bracketing interval, with
numpy's exact-hit and right-endpoint special cases. -/

def npInterpPoint (xp fp : List ℚ) (x : ℚ) : ℚ :=
  if xp.getD (xp.length - 1) 0 < x then fp.getD (fp.length - 1) 0
  else if x < xp.getD 0 0 then fp.getD 0 0
  else
    if interpSearch xp x = xp.length - 1 then fp.getD (interpSearch xp x) 0
    else if xp.getD (interpSearch xp x) 0 = x then fp.getD (interpSearch xp x) 0
    else
      fp.getD (interpSearch xp x) 0 +
        (fp.getD (interpSearch xp x + 1) 0 - fp.getD (interpSearch xp x) 0) /
            (xp.getD (interpSearch xp x + 1) 0 - xp.getD (interpSearch xp x) 0) *
          (x - xp.getD (interpSearch xp x) 0)

/-- `uniform_t = np.linspace(t_sel[0], t_sel[-1], len(t_sel))`
(gui_runtime.py line 326). -/

def uniformT (t_sel : List ℚ) : List ℚ :=
  (List.range t_sel.length).map
    (fun i => t_sel.getD 0 0 +
      (i : ℚ) * (t_sel.getD (t_sel.length - 1) 0 - t_sel.getD 0 0) / ((t_sel.length - 1 : ℕ) : ℚ))

/-- `v_interp = np.interp(uniform_t, t_sel, v_sel)` (line 327). -/

def vInterp (t_sel v_sel : List ℚ) : List ℚ :=
  (uniformT t_sel).map (npInterpPoint t_sel v_sel)

/-- `dt = uniform_t[1] - uniform_t[0]` (line 328). -/

def dtStep (t_sel : List ℚ) : ℚ :=
  (uniformT t_sel).getD 1 0 - (uniformT t_sel).getD 0 0

/-- `np.mean` of a sequence. -/

def meanQ (l : List ℚ) : ℚ := l.sum / (l.length : ℚ)

/-- `v_detrended = v_interp - np.mean(v_interp)` (line 332). -/

def vDetrended (t_sel v_sel : List ℚ) : List ℚ :=
  (vInterp t_sel v_sel).map (fun a => a - meanQ (vInterp t_sel v_sel))

/-- `fft_len = 1 << (n - 1).bit_length()` (line 335): the next
power of two at least the sample count. -/

def fftLen (t_sel : List ℚ) : Nat := 2 ^ Nat.size (t_sel.length - 1)

/-- `np.fft.rfftfreq(fft_len, dt)` (line 336): bins k/(d*N) for
k = 0 .. N/2. -/

def rfftfreqQ (N : Nat) (d : ℚ) : List ℚ :=
  (List.range (N / 2 + 1)).map (fun k => (k : ℚ) / (d * (N : ℚ)))

/-- The full (DC bin included) frequency axis of the spectrum. -/

def freqFull (t_sel : List ℚ) : List ℚ := rfftfreqQ (fftLen t_sel) (dtStep t_sel)

/-- `np.hanning(M)` (line 331): `0.5 - 0.5*cos(2*pi*n/(M-1))`, with
numpy's special case `hanning(1) = [1]`. -/

noncomputable def hannWindow (N : Nat) : List ℝ :=
  if N = 1 then [1]
  else (List.range N).map
    (fun i => 1/2 - 1/2 * Real.cos (2 * Real.pi * (i : ℝ) / ((N - 1 : ℕ) : ℝ)))

/-- `v_windowed = v_detrended * window` (line 337), elementwise. -/

noncomputable def vWindowed (t_sel v_sel : List ℚ) : List ℝ :=
  List.zipWith (fun a w => a * w)
    ((vDetrended t_sel v_sel).map (fun q => (q : ℝ))) (hannWindow t_sel.length)

/-- Zero-padding (or truncation) to `fft_len` (lines 338-341). -/

noncomputable def vPadded (t_sel v_sel : List ℚ) : List ℝ :=
  if (vWindowed t_sel v_sel).length < fftLen t_sel then
    vWindowed t_sel v_sel ++
      List.replicate (fftLen t_sel - (vWindowed t_sel v_sel).length) 0
  else (vWindowed t_sel v_sel).take (fftLen t_sel)

/-- Bin k of `np.fft.rfft(x)`:
`X[k] = sum_m x[m] * exp(-2*pi*I*k*m/len(x))` (line 343). -/

noncomputable def rfftVal (x : List ℝ) (k : Nat) : ℂ :=
  ∑ m ∈ Finset.range x.length,
    ((x.getD m 0 : ℝ) : ℂ) * Complex.exp (-(2 * Real.pi * Complex.I * (k : ℂ) * (m : ℂ)) / (x.length : ℂ))

/-- Normalized bin k:
`fft_vals = (2 / fft_len) * fft_vals / np.sqrt(2)` (line 345). -/

noncomputable def fftNorm (t_sel v_sel : List ℚ) (k : Nat) : ℂ :=
  (2 / (fftLen t_sel : ℂ)) * rfftVal (vPadded t_sel v_sel) k / ((Real.sqrt 2 : ℝ) : ℂ)

/-- The epsilon added before the logarithm: `np.finfo(float).eps`, the
IEEE-754 double machine epsilon 2 ^ (-52) (line 347). -/

def fft_eps : ℚ := 1 / 2 ^ 52

/-- Modelled from the spec: the "smallest representable positive
float", i.e. the smallest positive IEEE-754 double (the minimal
subnormal 2 ^ (-1074)); the code itself contains no such constant. -/

def smallest_pos_double : ℚ := 1 / 2 ^ 1074

/-- Pointwise magnitude `20 * np.log10(a + np.finfo(float).eps)`
applied to an absolute spectrum value (line 347). -/

noncomputable def magPoint (a : ℝ) : ℝ := 20 * Real.logb 10 (a + (fft_eps : ℚ))

/-- `mag_db = 20 * np.log10(np.abs(fft_vals) + np.finfo(float).eps)`
over all `fft_len // 2 + 1` rFFT bins (line 347). -/

noncomputable def magFull (t_sel v_sel : List ℚ) : List ℝ :=
  (List.range (fftLen t_sel / 2 + 1)).map
    (fun k => magPoint (Complex.abs (fftNorm t_sel v_sel k)))

/-- `freq = freq[1:]` (line 348): the DC bin dropped from the
frequency axis. -/

def freqDropDC (t_sel : List ℚ) : List ℚ := (freqFull t_sel).drop 1

/-- `mag_db = mag_db[1:]` (line 349): the DC bin dropped from the
magnitude array. -/

noncomputable def magDropDC (t_sel v_sel : List ℚ) : List ℝ :=
  (magFull t_sel v_sel).drop 1

/-- The band-limit mask `(freq >= 1e3) & (freq <= 200e6)` applied to
both arrays (lines 352-356), kept paired. -/

noncomputable def bandPairs (t_sel v_sel : List ℚ) : List (ℚ × ℝ) :=
  ((freqDropDC t_sel).zip (magDropDC t_sel v_sel)).filter
    (fun p => decide (1000 ≤ p.1) && decide (p.1 ≤ 200000000))

/-- The spectral computation of `show_fft` (gui_runtime.py lines
321-359): `none` for the early return when fewer than 2 samples are in
view, otherwise the band-limited frequency and magnitude arrays (the
code stores these in `freq_data`/`mag_data` even when the band is
empty). -/

noncomputable def show_fft_spectrum (t_sel v_sel : List ℚ) :
    Option (List ℚ × List ℝ) :=
  if t_sel.length < 2 then none
  else some ((bandPairs t_sel v_sel).map Prod.fst, (bandPairs t_sel v_sel).map Prod.snd)

/-- Strictly increasing sample sequence (indexwise). -/

abbrev StrictIncr (l : List ℚ) : Prop :=
  ∀ j, j < l.length → ∀ i, i < j → l.getD i 0 < l.getD j 0

/-- Non-decreasing sample sequence (indexwise). -/

abbrev MonoNonDec (l : List ℚ) : Prop :=
  ∀ j, j < l.length → ∀ i, i ≤ j → l.getD i 0 ≤ l.getD j 0

/-! ## Properties and claim theorems -/

theorem argmaxPair_cons (p : ℚ × ℚ) (rest : List (ℚ × ℚ)) :
    ∃ m, argmaxPair (p :: rest) = some m := by
  cases h : argmaxPair rest with
  | none => exact ⟨p, by simp [argmaxPair, h]⟩
  | some m0 =>
    by_cases hc : p.2 < m0.2
    · exact ⟨m0, by simp [argmaxPair, h, hc]⟩
    · exact ⟨p, by simp [argmaxPair, h, hc]⟩

theorem argminPair_cons (p : ℚ × ℚ) (rest : List (ℚ × ℚ)) :
    ∃ m, argminPair (p :: rest) = some m := by
  cases h : argminPair rest with
  | none => exact ⟨p, by simp [argminPair, h]⟩
  | some m0 =>
    by_cases hc : m0.2 < p.2
    · exact ⟨m0, by simp [argminPair, h, hc]⟩
    · exact ⟨p, by simp [argminPair, h, hc]⟩

theorem argmaxPair_mem : ∀ {l : List (ℚ × ℚ)} {m : ℚ × ℚ}, argmaxPair l = some m → m ∈ l := by
  intro l
  induction l with
  | nil => intro m h; simp [argmaxPair] at h
  | cons p rest ih =>
    intro m h
    cases hr : argmaxPair rest with
    | none => simp [argmaxPair, hr] at h; simp [h]
    | some m0 =>
      by_cases hc : p.2 < m0.2
      · simp [argmaxPair, hr, hc] at h
        exact List.mem_cons_of_mem p (h ▸ ih hr)
      · simp [argmaxPair, hr, hc] at h
        simp [h]

theorem argminPair_mem : ∀ {l : List (ℚ × ℚ)} {m : ℚ × ℚ}, argminPair l = some m → m ∈ l := by
  intro l
  induction l with
  | nil => intro m h; simp [argminPair] at h
  | cons p rest ih =>
    intro m h
    cases hr : argminPair rest with
    | none => simp [argminPair, hr] at h; simp [h]
    | some m0 =>
      by_cases hc : m0.2 < p.2
      · simp [argminPair, hr, hc] at h
        exact List.mem_cons_of_mem p (h ▸ ih hr)
      · simp [argminPair, hr, hc] at h
        simp [h]

theorem argmaxPair_eq_none : ∀ {l : List (ℚ × ℚ)}, argmaxPair l = none → l = [] := by
  intro l h
  cases l with
  | nil => rfl
  | cons p rest =>
    obtain ⟨m, hm⟩ := argmaxPair_cons p rest
    rw [hm] at h
    exact absurd h (by simp)

theorem argmaxPair_ge : ∀ {l : List (ℚ × ℚ)} {m : ℚ × ℚ}, argmaxPair l = some m →
    ∀ q ∈ l, q.2 ≤ m.2 := by
  intro l
  induction l with
  | nil => intro m _ q hq; simp at hq
  | cons p rest ih =>
    intro m h q hq
    cases hr : argmaxPair rest with
    | none =>
      have hrest : rest = [] := by
        cases rest with
        | nil => rfl
        | cons a t => obtain ⟨w, hw⟩ := argmaxPair_cons a t; rw [hw] at hr; simp at hr
      subst hrest
      simp [argmaxPair, hr] at h
      simp at hq
      simp [hq, h]
    | some m0 =>
      rcases List.mem_cons.mp hq with hqp | hqr
      · subst hqp
        by_cases hc : q.2 < m0.2
        · simp [argmaxPair, hr, hc] at h
          exact h ▸ le_of_lt hc
        · simp [argmaxPair, hr, hc] at h
          simp [h]
      · by_cases hc : p.2 < m0.2
        · simp [argmaxPair, hr, hc] at h
          exact h ▸ ih hr q hqr
        · simp [argmaxPair, hr, hc] at h
          have := ih hr q hqr
          have h2 : m0.2 ≤ p.2 := le_of_not_lt hc
          exact h ▸ le_trans this h2

theorem argminPair_le : ∀ {l : List (ℚ × ℚ)} {m : ℚ × ℚ}, argminPair l = some m →
    ∀ q ∈ l, m.2 ≤ q.2 := by
  intro l
  induction l with
  | nil => intro m _ q hq; simp at hq
  | cons p rest ih =>
    intro m h q hq
    cases hr : argminPair rest with
    | none =>
      have hrest : rest = [] := by
        cases rest with
        | nil => rfl
        | cons a t => obtain ⟨w, hw⟩ := argminPair_cons a t; rw [hw] at hr; simp at hr
      subst hrest
      simp [argminPair, hr] at h
      simp at hq
      simp [hq, h]
    | some m0 =>
      rcases List.mem_cons.mp hq with hqp | hqr
      · subst hqp
        by_cases hc : m0.2 < q.2
        · simp [argminPair, hr, hc] at h
          exact h ▸ le_of_lt hc
        · simp [argminPair, hr, hc] at h
          simp [h]
      · by_cases hc : m0.2 < p.2
        · simp [argminPair, hr, hc] at h
          exact h ▸ ih hr q hqr
        · simp [argminPair, hr, hc] at h
          have := ih hr q hqr
          have h2 : p.2 ≤ m0.2 := le_of_not_lt hc
          exact h ▸ le_trans h2 this

theorem windowStart_eq_min (lo hi : ℚ) : windowStart (lo, hi) = min lo hi := by
  unfold windowStart
  by_cases h : hi < lo
  · simp [h, min_eq_right (le_of_lt h)]
  · simp [h, min_eq_left (le_of_not_lt h)]

theorem windowStop_eq_max (lo hi : ℚ) : windowStop (lo, hi) = max lo hi := by
  unfold windowStop
  by_cases h : hi < lo
  · simp [h, max_eq_left (le_of_lt h)]
  · simp [h, max_eq_right (le_of_not_lt h)]

theorem compute_vpp_eq_none_iff (x y : List ℚ) (w : ℚ × ℚ) :
    compute_vpp x w y = none ↔ windowSel x y w = [] := by
  cases hsel : windowSel x y w with
  | nil => simp [compute_vpp, hsel, argmaxPair, argminPair]
  | cons p rest =>
    obtain ⟨mx, hmx⟩ := argmaxPair_cons p rest
    obtain ⟨mn, hmn⟩ := argminPair_cons p rest
    simp [compute_vpp, hsel, hmx, hmn]

/-- Membership of the index-i sample pair in the selection, given the
window condition at index i. -/

theorem mem_windowSel_of_index (x y : List ℚ) (w : ℚ × ℚ) (i : Nat)
    (hlen : x.length = y.length) (hilt : i < x.length)
    (h1 : windowStart w ≤ x.getD i 0) (h2 : x.getD i 0 ≤ windowStop w) :
    (x.getD i 0, y.getD i 0) ∈ windowSel x y w := by
  have hzlen : (x.zip y).length = x.length := by
    rw [List.length_zip, hlen, min_self]
  have hiz : i < (x.zip y).length := by omega
  have hx : x.getD i 0 = x[i] := List.getD_eq_getElem x 0 hilt
  have hy : y.getD i 0 = y[i] := List.getD_eq_getElem y 0 (by omega)
  have hmemz : (x.getD i 0, y.getD i 0) ∈ x.zip y := by
    rw [hx, hy]
    have : (x.zip y)[i] = (x[i], y[i]) := List.getElem_zip
    exact this ▸ List.getElem_mem hiz
  refine List.mem_filter.mpr ⟨hmemz, ?_⟩
  simp only [Bool.and_eq_true, decide_eq_true_eq]
  exact ⟨h1, h2⟩

theorem windowSel_index_of_mem (x y : List ℚ) (w : ℚ × ℚ) (hlen : x.length = y.length)
    (hsel : windowSel x y w = []) (i : Nat) (hilt : i < x.length) :
    ¬(windowStart w ≤ x.getD i 0 ∧ x.getD i 0 ≤ windowStop w) := by
  rintro ⟨h1, h2⟩
  have := mem_windowSel_of_index x y w i hlen hilt h1 h2
  rw [hsel] at this
  simp at this

/-- C7: for all real lo, hi and every trace (x, y), compute_vpp with
window (lo, hi) and with window (hi, lo) produce identical results:
the window is normalized by swapping its bounds before use. -/

theorem C7_thm (x y : List ℚ) (lo hi : ℚ) :
    compute_vpp x (lo, hi) y = compute_vpp x (hi, lo) y := by
  have h1 : windowStart (hi, lo) = windowStart (lo, hi) := by
    unfold windowStart
    rcases lt_trichotomy lo hi with h | h | h
    · simp [h, not_lt.mpr (le_of_lt h)]
    · simp [h]
    · simp [h, not_lt.mpr (le_of_lt h)]
  have h2 : windowStop (hi, lo) = windowStop (lo, hi) := by
    unfold windowStop
    rcases lt_trichotomy lo hi with h | h | h
    · simp [h, not_lt.mpr (le_of_lt h)]
    · simp [h]
    · simp [h, not_lt.mpr (le_of_lt h)]
  simp only [compute_vpp, windowSel, h1, h2]

/-- C8: compute_vpp fails with the empty-selection error (`none`) if and
only if no sample x[i] lies in the normalized window
[min(lo,hi), max(lo,hi)]; it never silently returns statistics in that
case. -/

theorem C8_thm (x y : List ℚ) (lo hi : ℚ) (hlen : x.length = y.length) :
    compute_vpp x (lo, hi) y = none ↔
      ∀ i, i < x.length → ¬(min lo hi ≤ x.getD i 0 ∧ x.getD i 0 ≤ max lo hi) := by
  rw [compute_vpp_eq_none_iff]
  constructor
  · intro hsel i hilt
    rw [← windowStart_eq_min, ← windowStop_eq_max]
    exact windowSel_index_of_mem x y (lo, hi) hlen hsel i hilt
  · intro hall
    rw [windowSel]
    rw [List.filter_eq_nil_iff]
    intro p hp
    obtain ⟨i, hiz, hpi⟩ := List.mem_iff_getElem.mp hp
    have hzlen : (x.zip y).length = x.length := by
      rw [List.length_zip, hlen, min_self]
    have hilt : i < x.length := by omega
    have hgz : (x.zip y)[i] = (x[i], y[i]) := List.getElem_zip
    have hp1 : p.1 = x.getD i 0 := by
      rw [List.getD_eq_getElem x 0 hilt, ← hpi, hgz]
    simp only [Bool.and_eq_true, decide_eq_true_eq, not_and]
    intro hlo hhi
    have := hall i hilt
    rw [← windowStart_eq_min, ← windowStop_eq_max] at this
    exact this ⟨hp1 ▸ hlo, hp1 ▸ hhi⟩

/-- C8 witness: a window entirely outside the x-range of the data gives
the empty-selection failure. -/

theorem C8_witness : compute_vpp [(0 : ℚ), 1] ((10 : ℚ), (20 : ℚ)) [(3 : ℚ), 4] = none :=
  (C8_thm [0, 1] [3, 4] 10 20 rfl).mpr (by decide)

/-- C9: whenever at least one sample lies inside the normalized window,
compute_vpp returns a tuple with v_max >= v_min, vpp = v_max - v_min,
and t_max, t_min inside [min(lo,hi), max(lo,hi)]. -/

theorem C9_thm (x y : List ℚ) (lo hi : ℚ) (hlen : x.length = y.length)
    (i : Nat) (hilt : i < x.length)
    (hin : min lo hi ≤ x.getD i 0 ∧ x.getD i 0 ≤ max lo hi) :
    ∃ vpp tmax vmax tmin vmin,
      compute_vpp x (lo, hi) y = some (vpp, tmax, vmax, tmin, vmin) ∧
      vmin ≤ vmax ∧ vpp = vmax - vmin ∧
      min lo hi ≤ tmax ∧ tmax ≤ max lo hi ∧ min lo hi ≤ tmin ∧ tmin ≤ max lo hi := by
  have hmem : (x.getD i 0, y.getD i 0) ∈ windowSel x y (lo, hi) := by
    apply mem_windowSel_of_index x y (lo, hi) i hlen hilt
    · rw [windowStart_eq_min]; exact hin.1
    · rw [windowStop_eq_max]; exact hin.2
  obtain ⟨p, rest, hsel⟩ : ∃ p rest, windowSel x y (lo, hi) = p :: rest := by
    cases hs : windowSel x y (lo, hi) with
    | nil => rw [hs] at hmem; simp at hmem
    | cons p rest => exact ⟨p, rest, rfl⟩
  obtain ⟨mx, hmx⟩ := argmaxPair_cons p rest
  obtain ⟨mn, hmn⟩ := argminPair_cons p rest
  rw [← hsel] at hmx hmn
  have hmxmem := argmaxPair_mem hmx
  have hmnmem := argminPair_mem hmn
  have hminmax : mn.2 ≤ mx.2 := argmaxPair_ge hmx mn hmnmem
  have hbound : ∀ q ∈ windowSel x y (lo, hi),
      min lo hi ≤ q.1 ∧ q.1 ≤ max lo hi := by
    intro q hq
    have := (List.mem_filter.mp hq).2
    simp only [Bool.and_eq_true, decide_eq_true_eq] at this
    rw [windowStart_eq_min, windowStop_eq_max] at this
    exact this
  obtain ⟨hmx1, hmx2⟩ := hbound mx hmxmem
  obtain ⟨hmn1, hmn2⟩ := hbound mn hmnmem
  exact ⟨mx.2 - mn.2, mx.1, mx.2, mn.1, mn.2,
    by simp [compute_vpp, hmx, hmn], hminmax, rfl, hmx1, hmx2, hmn1, hmn2⟩

/-- C9 witness: the spec example trace t = [0,1,2,3,4],
v = [0,1,0,-1,1/2] over the window (0, 4). -/

theorem C9_witness :
    ∃ vpp tmax vmax tmin vmin,
      compute_vpp [(0 : ℚ), 1, 2, 3, 4] ((0 : ℚ), (4 : ℚ)) [(0 : ℚ), 1, 0, -1, 1/2] =
        some (vpp, tmax, vmax, tmin, vmin) ∧
      vmin ≤ vmax ∧ vpp = vmax - vmin ∧
      min (0 : ℚ) 4 ≤ tmax ∧ tmax ≤ max (0 : ℚ) 4 ∧
      min (0 : ℚ) 4 ≤ tmin ∧ tmin ≤ max (0 : ℚ) 4 :=
  C9_thm [0, 1, 2, 3, 4] [0, 1, 0, -1, 1/2] 0 4 rfl 0 (by decide) (by decide)

theorem scanFirst_some_iff (p : Nat → Bool) (bound : Nat) :
    ∀ (fuel i j : Nat), bound ≤ fuel + i →
      (scanFirst p bound fuel i = some j ↔
        i ≤ j ∧ j < bound ∧ p j = true ∧ ∀ m, i ≤ m → m < j → p m = false) := by
  intro fuel
  induction fuel with
  | zero =>
    intro i j hfi
    simp only [scanFirst]
    constructor
    · intro h; simp at h
    · rintro ⟨h1, h2, _, _⟩; omega
  | succ fuel ih =>
    intro i j hfi
    simp only [scanFirst]
    by_cases hib : i < bound
    · rw [if_pos hib]
      by_cases hpi : p i = true
      · rw [if_pos hpi]
        constructor
        · intro h
          have hij : i = j := by simpa using h
          subst hij
          exact ⟨le_refl i, hib, hpi, fun m h1 h2 => absurd (lt_of_le_of_lt h1 h2) (lt_irrefl i)⟩
        · rintro ⟨h1, _, hpj, hmin⟩
          rcases Nat.eq_or_lt_of_le h1 with he | hl
          · simp [he]
          · exact absurd hpi (by simp [hmin i (le_refl i) hl])
      · rw [if_neg hpi]
        rw [ih (i + 1) j (by omega)]
        constructor
        · rintro ⟨h1, h2, h3, h4⟩
          refine ⟨by omega, h2, h3, fun m hm1 hm2 => ?_⟩
          rcases Nat.eq_or_lt_of_le hm1 with he | hl
          · subst he; simpa using hpi
          · exact h4 m hl hm2
        · rintro ⟨h1, h2, h3, h4⟩
          have hij : i ≠ j := by
            intro he; subst he; exact hpi h3
          exact ⟨by omega, h2, h3, fun m hm1 hm2 => h4 m (by omega) hm2⟩
    · rw [if_neg hib]
      constructor
      · intro h; simp at h
      · rintro ⟨h1, h2, _, _⟩; omega

theorem scanFirst_none_iff (p : Nat → Bool) (bound : Nat) :
    ∀ (fuel i : Nat), bound ≤ fuel + i →
      (scanFirst p bound fuel i = none ↔ ∀ m, i ≤ m → m < bound → p m = false) := by
  intro fuel
  induction fuel with
  | zero =>
    intro i hfi
    simp only [scanFirst]
    constructor
    · intro _ m h1 h2; omega
    · intro _; trivial
  | succ fuel ih =>
    intro i hfi
    simp only [scanFirst]
    by_cases hib : i < bound
    · rw [if_pos hib]
      by_cases hpi : p i = true
      · rw [if_pos hpi]
        constructor
        · intro h; simp at h
        · intro h
          exact absurd hpi (by simp [h i (le_refl i) hib])
      · rw [if_neg hpi]
        rw [ih (i + 1) (by omega)]
        constructor
        · intro h m hm1 hm2
          rcases Nat.eq_or_lt_of_le hm1 with he | hl
          · subst he; simpa using hpi
          · exact h m hl hm2
        · intro h m hm1 hm2
          exact h m (by omega) hm2
    · rw [if_neg hib]
      constructor
      · intro _ m h1 h2; omega
      · intro _; rfl

/-- Crossing condition as a proposition. -/

theorem crossCondB_iff (v : List ℚ) (thr : ℚ) (i : Nat) :
    crossCondB v thr i = true ↔ v.getD i 0 ≤ thr ∧ thr ≤ v.getD (i + 1) 0 := by
  simp [crossCondB]

theorem findCross_some_iff (v t : List ℚ) (thr : ℚ) (start i : Nat) (τ : ℚ) :
    findCross v t thr start = some (i, τ) ↔
      start ≤ i ∧ i + 1 < v.length ∧
      (v.getD i 0 ≤ thr ∧ thr ≤ v.getD (i + 1) 0) ∧
      (∀ m, start ≤ m → m < i → ¬(v.getD m 0 ≤ thr ∧ thr ≤ v.getD (m + 1) 0)) ∧
      τ = interp2 thr (v.getD i 0) (v.getD (i + 1) 0) (t.getD i 0) (t.getD (i + 1) 0) := by
  unfold findCross
  rw [Option.map_eq_some']
  have hfuel : v.length - 1 ≤ (v.length - start) + start := by omega
  constructor
  · rintro ⟨k, hk, hkeq⟩
    rw [scanFirst_some_iff (crossCondB v thr) (v.length - 1) (v.length - start) start k hfuel] at hk
    obtain ⟨h1, h2, h3, h4⟩ := hk
    have hki : k = i := by
      have := congrArg Prod.fst hkeq; simpa using this
    subst hki
    have hτ : τ = interp2 thr (v.getD k 0) (v.getD (k + 1) 0) (t.getD k 0) (t.getD (k + 1) 0) := by
      have := congrArg Prod.snd hkeq; simpa using this.symm
    refine ⟨h1, by omega, (crossCondB_iff v thr k).mp h3, ?_, hτ⟩
    intro m hm1 hm2 hcond
    have hfalse := h4 m hm1 hm2
    rw [← crossCondB_iff v thr m] at hcond
    rw [hfalse] at hcond
    exact absurd hcond (by simp)
  · rintro ⟨h1, h2, h3, h4, h5⟩
    refine ⟨i, ?_, by rw [h5]⟩
    rw [scanFirst_some_iff (crossCondB v thr) (v.length - 1) (v.length - start) start i hfuel]
    refine ⟨h1, by omega, (crossCondB_iff v thr i).mpr h3, ?_⟩
    intro m hm1 hm2
    have := h4 m hm1 hm2
    rw [← crossCondB_iff] at this
    simpa using this

theorem findCross_none_iff (v t : List ℚ) (thr : ℚ) (start : Nat) :
    findCross v t thr start = none ↔
      ∀ m, start ≤ m → m + 1 < v.length → ¬(v.getD m 0 ≤ thr ∧ thr ≤ v.getD (m + 1) 0) := by
  unfold findCross
  rw [Option.map_eq_none']
  have hfuel : v.length - 1 ≤ (v.length - start) + start := by omega
  rw [scanFirst_none_iff (crossCondB v thr) (v.length - 1) (v.length - start) start hfuel]
  constructor
  · intro h m hm1 hm2 hcond
    have := h m hm1 (by omega)
    rw [← crossCondB_iff v thr m] at hcond
    simp [this] at hcond
  · intro h m hm1 hm2
    have := h m hm1 (by omega)
    rw [← crossCondB_iff v thr m] at this
    simpa using this

theorem minList_le : ∀ {l : List ℚ}, ∀ a ∈ l, minList l ≤ a := by
  intro l
  induction l with
  | nil => intro a ha; simp at ha
  | cons p rest ih =>
    intro a ha
    cases rest with
    | nil =>
      simp at ha
      simp [minList, ha]
    | cons b t =>
      rcases List.mem_cons.mp ha with hap | har
      · subst hap
        simp only [minList]
        exact min_le_left _ _
      · simp only [minList]
        exact le_trans (min_le_right _ _) (ih a har)

theorem maxList_ge : ∀ {l : List ℚ}, ∀ a ∈ l, a ≤ maxList l := by
  intro l
  induction l with
  | nil => intro a ha; simp at ha
  | cons p rest ih =>
    intro a ha
    cases rest with
    | nil =>
      simp at ha
      simp [maxList, ha]
    | cons b t =>
      rcases List.mem_cons.mp ha with hap | har
      · subst hap
        simp only [maxList]
        exact le_max_left _ _
      · simp only [maxList]
        exact le_trans (ih a har) (le_max_right _ _)

theorem minList_mem : ∀ {l : List ℚ}, l ≠ [] → minList l ∈ l := by
  intro l
  induction l with
  | nil => intro h; exact absurd rfl h
  | cons p rest ih =>
    intro _
    cases rest with
    | nil => simp [minList]
    | cons b t =>
      simp only [minList]
      rcases min_choice p (minList (b :: t)) with h | h
      · rw [h]; simp
      · rw [h]
        exact List.mem_cons_of_mem p (ih (by simp))

theorem maxList_mem : ∀ {l : List ℚ}, l ≠ [] → maxList l ∈ l := by
  intro l
  induction l with
  | nil => intro h; exact absurd rfl h
  | cons p rest ih =>
    intro _
    cases rest with
    | nil => simp [maxList]
    | cons b t =>
      simp only [maxList]
      rcases max_choice p (maxList (b :: t)) with h | h
      · rw [h]; simp
      · rw [h]
        exact List.mem_cons_of_mem p (ih (by simp))

theorem minList_le_maxList {l : List ℚ} (h : l ≠ []) : minList l ≤ maxList l :=
  maxList_ge (minList l) (minList_mem h)

/-- Every entry of a list with all-equal entries. -/

theorem getD_of_all_eq {l : List ℚ} {c : ℚ} (h : ∀ a ∈ l, a = c) {i : Nat}
    (hi : i < l.length) : l.getD i 0 = c := by
  rw [List.getD_eq_getElem l 0 hi]
  exact h _ (List.getElem_mem hi)

theorem minList_of_all_eq {l : List ℚ} {c : ℚ} (hne : l ≠ []) (h : ∀ a ∈ l, a = c) :
    minList l = c := h _ (minList_mem hne)

theorem maxList_of_all_eq {l : List ℚ} {c : ℚ} (hne : l ≠ []) (h : ∀ a ∈ l, a = c) :
    maxList l = c := h _ (maxList_mem hne)

theorem maxList_of_all_zero {l : List ℚ} (h : ∀ a ∈ l, a = 0) : maxList l = 0 := by
  cases l with
  | nil => rfl
  | cons p rest => exact maxList_of_all_eq (by simp) h

/-- Nondegenerate branch of the two-point interpolation. -/

theorem interp2_eq_of_lt {x x0 x1 f0 f1 : ℚ} (h : x0 < x1) :
    interp2 x x0 x1 f0 f1 = f0 + (x - x0) * (f1 - f0) / (x1 - x0) := by
  rw [interp2, if_neg (ne_of_lt h)]

/-- The interpolated value does not exceed the right node value. -/

theorem interp2_le_right {x x0 x1 f0 f1 : ℚ} (hx0 : x0 ≤ x) (hx1 : x ≤ x1) (hf : f0 ≤ f1) :
    interp2 x x0 x1 f0 f1 ≤ f1 := by
  rcases eq_or_lt_of_le (le_trans hx0 hx1) with he | hlt
  · rw [interp2, if_pos he]
  · rw [interp2_eq_of_lt hlt]
    have hd : (0 : ℚ) < x1 - x0 := by linarith
    have hlam : (x - x0) / (x1 - x0) ≤ 1 := by
      rw [div_le_one hd]; linarith
    have hlam0 : (0 : ℚ) ≤ (x - x0) / (x1 - x0) := by
      apply div_nonneg <;> linarith
    have hcalc : (x - x0) * (f1 - f0) / (x1 - x0) = ((x - x0) / (x1 - x0)) * (f1 - f0) := by
      ring
    rw [hcalc]
    nlinarith [mul_le_mul_of_nonneg_right hlam (by linarith : (0 : ℚ) ≤ f1 - f0)]

/-- The interpolated value is at least the left node value. -/

theorem interp2_ge_left {x x0 x1 f0 f1 : ℚ} (hx0 : x0 ≤ x) (hx1 : x ≤ x1) (hf : f0 ≤ f1) :
    f0 ≤ interp2 x x0 x1 f0 f1 := by
  rcases eq_or_lt_of_le (le_trans hx0 hx1) with he | hlt
  · rw [interp2, if_pos he]; exact hf
  · rw [interp2_eq_of_lt hlt]
    have hd : (0 : ℚ) < x1 - x0 := by linarith
    have : (0 : ℚ) ≤ (x - x0) * (f1 - f0) / (x1 - x0) := by
      apply div_nonneg
      · nlinarith
      · linarith
    linarith

/-- Strict version: above the left node whenever the query is strictly
above the left breakpoint and the node values strictly increase. -/

theorem interp2_gt_left {x x0 x1 f0 f1 : ℚ} (hx01 : x0 < x1) (hx0 : x0 < x) (hf : f0 < f1) :
    f0 < interp2 x x0 x1 f0 f1 := by
  rw [interp2_eq_of_lt hx01]
  have hd : (0 : ℚ) < x1 - x0 := by linarith
  have : (0 : ℚ) < (x - x0) * (f1 - f0) / (x1 - x0) := by
    apply div_pos
    · nlinarith
    · linarith
  linarith

/-- Same-segment monotonicity in the query point, strict. -/

theorem interp2_lt_interp2 {x y x0 x1 f0 f1 : ℚ} (hx01 : x0 < x1) (hf : f0 < f1) (hxy : x < y) :
    interp2 x x0 x1 f0 f1 < interp2 y x0 x1 f0 f1 := by
  rw [interp2_eq_of_lt hx01, interp2_eq_of_lt hx01]
  have hd : (0 : ℚ) < x1 - x0 := by linarith
  have hnum : (x - x0) * (f1 - f0) < (y - x0) * (f1 - f0) := by nlinarith
  rw [div_eq_mul_inv, div_eq_mul_inv]
  have hinv : (0 : ℚ) < (x1 - x0)⁻¹ := inv_pos.mpr hd
  nlinarith [mul_lt_mul_of_pos_right hnum hinv]

/-- Same-segment monotonicity in the query point, non-strict, covering
the degenerate segment. -/

theorem interp2_le_interp2 {x y x0 x1 f0 f1 : ℚ} (hx01 : x0 ≤ x1) (hf : f0 ≤ f1) (hxy : x ≤ y) :
    interp2 x x0 x1 f0 f1 ≤ interp2 y x0 x1 f0 f1 := by
  rcases eq_or_lt_of_le hx01 with he | hlt
  · rw [interp2, if_pos he, interp2, if_pos he]
  · rw [interp2_eq_of_lt hlt, interp2_eq_of_lt hlt]
    have hd : (0 : ℚ) < x1 - x0 := by linarith
    have hnum : (x - x0) * (f1 - f0) ≤ (y - x0) * (f1 - f0) := by nlinarith
    rw [div_eq_mul_inv, div_eq_mul_inv]
    have hinv : (0 : ℚ) ≤ (x1 - x0)⁻¹ := le_of_lt (inv_pos.mpr hd)
    nlinarith [mul_le_mul_of_nonneg_right hnum hinv]

/-- On a trace shorter than two samples no crossing pair exists. -/

theorem findCross_of_short (v t : List ℚ) (thr : ℚ) (s : Nat) (h : v.length ≤ 1) :
    findCross v t thr s = none := by
  rw [findCross_none_iff]
  intro m _ hm
  omega

/-- All thresholds collapse to the common value on an all-equal trace. -/

theorem vThresh_of_all_eq {v : List ℚ} {c : ℚ} (hne : v ≠ []) (hall : ∀ a ∈ v, a = c)
    (p : ℚ) : vThresh v p = c := by
  unfold vThresh swingQ vLow vHigh
  rw [minList_of_all_eq hne hall, maxList_of_all_eq hne hall]
  ring

/-- On an all-equal trace of length at least 2 every crossing search
terminates at the first pair with the degenerate interpolated time
`time_arr[1]`. -/

theorem findCross_of_all_eq {v : List ℚ} {c : ℚ} (t : List ℚ) (h2 : 2 ≤ v.length)
    (hall : ∀ a ∈ v, a = c) :
    findCross v t c 0 = some (0, t.getD 1 0) := by
  rw [findCross_some_iff]
  have h0 : v.getD 0 0 = c := getD_of_all_eq hall (by omega)
  have h1 : v.getD 1 0 = c := getD_of_all_eq hall (by omega)
  refine ⟨le_refl 0, by omega, ⟨le_of_eq h0, le_of_eq h1.symm⟩, ?_, ?_⟩
  · intro m _ hm
    omega
  · rw [h0, h1, interp2, if_pos rfl]

/-- Every numerical-gradient entry of an all-equal trace vanishes
(every numerator is zero; the time spacing is irrelevant). -/

theorem gradAt_of_all_eq {v : List ℚ} {c : ℚ} (t : List ℚ) (h2 : 2 ≤ v.length)
    (hall : ∀ a ∈ v, a = c) {i : Nat} (hi : i < v.length) :
    gradAt v t i = 0 := by
  unfold gradAt
  by_cases h0 : i = 0
  · rw [if_pos h0]
    rw [getD_of_all_eq hall (by omega : 1 < v.length),
      getD_of_all_eq hall (by omega : 0 < v.length)]
    simp
  · rw [if_neg h0]
    by_cases hlast : i = v.length - 1
    · rw [if_pos hlast]
      rw [getD_of_all_eq hall hi, getD_of_all_eq hall (by omega : i - 1 < v.length)]
      simp
    · rw [if_neg hlast]
      rw [getD_of_all_eq hall (by omega : i + 1 < v.length), getD_of_all_eq hall hi,
        getD_of_all_eq hall (by omega : i - 1 < v.length)]
      rw [show ∀ a b d : ℚ, a * c + (d - a) * c - d * c = 0 from fun a b d => by ring]
      · simp
      · exact 0

theorem maxAbsList_of_all_eq_zero {v : List ℚ} {c : ℚ} (t : List ℚ) (h2 : 2 ≤ v.length)
    (hall : ∀ a ∈ v, a = c) : maxAbsList (npGradient v t) = 0 := by
  apply maxList_of_all_zero
  intro a ha
  obtain ⟨g, hg, hga⟩ := List.mem_map.mp ha
  obtain ⟨i, hi, hgi⟩ := List.mem_map.mp hg
  have : g = 0 := by
    rw [← hgi]
    exact gradAt_of_all_eq t h2 hall (List.mem_range.mp hi)
  rw [← hga, this]
  simp

/-- On an all-equal nonempty trace the transient engine returns NaN for
all three metrics. -/

theorem transient_metrics_of_all_eq (t v : List ℚ) (c : ℚ) (hne : v ≠ [])
    (hall : ∀ a ∈ v, a = c) :
    transient_metrics t v = some (none, none, none) := by
  have hnottr : ¬ v.isEmpty := by
    cases v with
    | nil => exact absurd rfl hne
    | cons a l => simp
  by_cases h2 : 2 ≤ v.length
  · have hcl : ∀ p : ℚ, crossLow t v p = some (0, t.getD 1 0) := by
      intro p
      unfold crossLow
      rw [vThresh_of_all_eq hne hall p]
      exact findCross_of_all_eq t h2 hall
    have hch : ∀ pl ph : ℚ, crossHigh t v pl ph = some (0, t.getD 1 0) := by
      intro pl ph
      unfold crossHigh
      rw [hcl pl, vThresh_of_all_eq hne hall ph]
      exact findCross_of_all_eq t h2 hall
    have hsr : ∀ pl ph : ℚ, srPair t v pl ph = none := by
      intro pl ph
      unfold srPair
      rw [hcl pl, hch pl ph]
      simp
    have hset : settlingTime t v = none := by
      unfold settlingTime cross90
      rw [hch (1/10) (9/10), maxAbsList_of_all_eq_zero t h2 hall]
      simp
    unfold transient_metrics sr9010 sr8020
    rw [if_neg hnottr, hsr (1/10) (9/10), hsr (2/10) (8/10), hset]
  · have hshort : v.length ≤ 1 := by omega
    have hcl : ∀ p : ℚ, crossLow t v p = none := by
      intro p
      unfold crossLow
      exact findCross_of_short v t _ 0 hshort
    have hsr : ∀ pl ph : ℚ, srPair t v pl ph = none := by
      intro pl ph
      unfold srPair
      rw [hcl pl]
    have hset : settlingTime t v = none := by
      unfold settlingTime cross90 crossHigh
      rw [hcl (1/10)]
    unfold transient_metrics sr9010 sr8020
    rw [if_neg hnottr, hsr (1/10) (9/10), hsr (2/10) (8/10), hset]

/-- C1 (amended): the spectral engine `show_fft` aborts without a
result for fewer than 2 samples in view; the transient metric
computation of `run_simulation` has no such guard: on a single-sample
trace it returns a result whose three metrics are NaN (only the empty
trace fails hard, via the empty `min()` reduction). -/

theorem C1_thm :
    (∀ t_sel v_sel : List ℚ, t_sel.length < 2 → show_fft_spectrum t_sel v_sel = none)
    ∧ (∀ (t : List ℚ) (a : ℚ), transient_metrics t [a] = some (none, none, none)) := by
  constructor
  · intro t_sel v_sel h
    unfold show_fft_spectrum
    rw [if_pos h]
  · intro t a
    exact transient_metrics_of_all_eq t [a] a (by simp) (by simp)

/-- C1 counterexample: on the one-sample trace (fewer than 2 samples)
the transient engine returns a result (with NaN metrics) instead of
failing hard, contradicting the claim for the transient engine. -/

theorem C1_counterexample :
    transient_metrics [(0 : ℚ)] [(5 : ℚ)] = some (none, none, none) := by decide

/-- C1 witness for the amended theorem. -/

theorem C1_witness :
    show_fft_spectrum [(0 : ℚ)] [(1 : ℚ)] = none ∧
    transient_metrics [(0 : ℚ), 1] [(7 : ℚ)] = some (none, none, none) :=
  ⟨C1_thm.1 [0] [1] (by decide), C1_thm.2 [0, 1] 7⟩

/-- C2 (amended): a trace with all-equal voltage samples yields vpp = 0
(whenever the window selection is nonempty) and NaN for all three
transient metrics, provided the voltage trace has at least one sample
(the empty trace makes the transient engine fail hard instead). -/

theorem C2_thm :
    (∀ (x y : List ℚ) (w : ℚ × ℚ) (c vpp tmax vmax tmin vmin : ℚ), (∀ a ∈ y, a = c) →
        compute_vpp x w y = some (vpp, tmax, vmax, tmin, vmin) → vpp = 0)
    ∧ (∀ (t v : List ℚ) (c : ℚ), v ≠ [] → (∀ a ∈ v, a = c) →
        transient_metrics t v = some (none, none, none)) := by
  constructor
  · intro x y w c vpp tmax vmax tmin vmin hall heq
    unfold compute_vpp at heq
    cases hmx : argmaxPair (windowSel x y w) with
    | none => rw [hmx] at heq; simp at heq
    | some mx =>
      cases hmn : argminPair (windowSel x y w) with
      | none => rw [hmx, hmn] at heq; simp at heq
      | some mn =>
        rw [hmx, hmn] at heq
        simp only [Option.some.injEq, Prod.mk.injEq] at heq
        have hvpp : vpp = mx.2 - mn.2 := heq.1.symm
        have hmxy : mx.2 ∈ y := by
          have hmem := argmaxPair_mem hmx
          have hz := (List.mem_filter.mp hmem).1
          exact (List.of_mem_zip (show (mx.1, mx.2) ∈ x.zip y from hz)).2
        have hmny : mn.2 ∈ y := by
          have hmem := argminPair_mem hmn
          have hz := (List.mem_filter.mp hmem).1
          exact (List.of_mem_zip (show (mn.1, mn.2) ∈ x.zip y from hz)).2
        rw [hvpp, hall mx.2 hmxy, hall mn.2 hmny]
        ring
  · intro t v c hne hall
    exact transient_metrics_of_all_eq t v c hne hall

/-- C2 counterexample: the claim also covers the zero-length all-equal
trace, where the transient engine fails hard (empty `min()` reduction)
rather than returning the NaN triple. -/

theorem C2_counterexample :
    ¬ transient_metrics ([] : List ℚ) ([] : List ℚ) = some (none, none, none) := by decide

/-- C2 witness for the amended theorem on a concrete constant trace. -/

theorem C2_witness :
    compute_vpp [(0 : ℚ), 1, 2] ((0 : ℚ), (2 : ℚ)) [(3 : ℚ), 3, 3] = some (0, 0, 3, 0, 3)
    ∧ (0 : ℚ) = 0
    ∧ transient_metrics [(0 : ℚ), 1, 2] [(3 : ℚ), 3, 3] = some (none, none, none) :=
  ⟨by norm_num [compute_vpp, windowSel, windowStart, windowStop, argmaxPair, argminPair],
    C2_thm.1 [0, 1, 2] [3, 3, 3] (0, 2) 3 0 0 3 0 3 (by decide)
      (by norm_num [compute_vpp, windowSel, windowStart, windowStop, argmaxPair, argminPair]),
    C2_thm.2 [0, 1, 2] [3, 3, 3] 3 (by decide) (by decide)⟩

/-- C3: all three engines are pure functions of their declared inputs;
two calls on identical inputs yield identical outputs by construction
of the embedding, which carries no hidden state. -/

theorem C3_thm (x y time_arr v_arr t_sel v_sel : List ℚ) (w : ℚ × ℚ) :
    compute_vpp x w y = compute_vpp x w y ∧
    transient_metrics time_arr v_arr = transient_metrics time_arr v_arr ∧
    show_fft_spectrum t_sel v_sel = show_fft_spectrum t_sel v_sel :=
  ⟨rfl, rfl, rfl⟩

theorem settleCondB_iff (tArr grad : List ℚ) (thresh t90 : ℚ) (k : Nat) :
    settleCondB tArr grad thresh t90 k = true ↔ settleCond tArr grad thresh t90 k := by
  simp [settleCondB, settleCond, List.all_eq_true]

theorem settlingSearch_some_iff (tArr grad : List ℚ) (thresh t90 s : ℚ) :
    settlingSearch tArr grad thresh t90 = some s ↔
      ∃ k, k < tArr.length ∧ settleCond tArr grad thresh t90 k ∧
        (∀ m, m < k → ¬ settleCond tArr grad thresh t90 m) ∧
        s = tArr.getD k 0 - t90 := by
  unfold settlingSearch
  rw [Option.map_eq_some']
  constructor
  · rintro ⟨k, hk, hks⟩
    rw [scanFirst_some_iff (settleCondB tArr grad thresh t90) tArr.length tArr.length 0 k
      (by omega)] at hk
    obtain ⟨_, h2, h3, h4⟩ := hk
    refine ⟨k, h2, (settleCondB_iff tArr grad thresh t90 k).mp h3, ?_, hks.symm⟩
    intro m hm hcond
    have := h4 m (by omega) hm
    rw [← settleCondB_iff tArr grad thresh t90 m] at hcond
    rw [this] at hcond
    exact absurd hcond (by simp)
  · rintro ⟨k, h1, h2, h3, h4⟩
    refine ⟨k, ?_, h4.symm⟩
    rw [scanFirst_some_iff (settleCondB tArr grad thresh t90) tArr.length tArr.length 0 k
      (by omega)]
    refine ⟨by omega, h1, (settleCondB_iff tArr grad thresh t90 k).mpr h2, ?_⟩
    intro m _ hm
    have := h3 m hm
    rw [← settleCondB_iff tArr grad thresh t90 m] at this
    simpa using this

theorem settlingSearch_none_iff (tArr grad : List ℚ) (thresh t90 : ℚ) :
    settlingSearch tArr grad thresh t90 = none ↔
      ∀ k, k < tArr.length → ¬ settleCond tArr grad thresh t90 k := by
  unfold settlingSearch
  rw [Option.map_eq_none']
  rw [scanFirst_none_iff (settleCondB tArr grad thresh t90) tArr.length tArr.length 0 (by omega)]
  constructor
  · intro h k hk hcond
    have := h k (by omega) hk
    rw [← settleCondB_iff tArr grad thresh t90 k] at hcond
    rw [this] at hcond
    exact absurd hcond (by simp)
  · intro h k _ hk
    have := h k hk
    rw [← settleCondB_iff tArr grad thresh t90 k] at this
    simpa using this

/-- C4: the settling time is time[k] - t90 for the first index k such
that time[k] >= t90 and the 5 consecutive gradient magnitudes at
samples k..k+4 (clipped at the array end) are all below 1 percent of
the maximum absolute gradient; it is NaN when no such k exists, when
t90 is undefined, or when the maximum gradient magnitude is zero. -/

theorem C4_thm (t v : List ℚ) :
    (cross90 t v = none → settlingTime t v = none)
    ∧ (∀ i90 t90, cross90 t v = some (i90, t90) →
        ¬ 0 < maxAbsList (npGradient v t) → settlingTime t v = none)
    ∧ (∀ i90 t90, cross90 t v = some (i90, t90) → 0 < maxAbsList (npGradient v t) →
        (∀ s, settlingTime t v = some s ↔
          ∃ k, k < t.length ∧
            settleCond t (npGradient v t) ((1/100) * maxAbsList (npGradient v t)) t90 k ∧
            (∀ m, m < k →
              ¬ settleCond t (npGradient v t) ((1/100) * maxAbsList (npGradient v t)) t90 m) ∧
            s = t.getD k 0 - t90)
        ∧ (settlingTime t v = none ↔ ∀ k, k < t.length →
            ¬ settleCond t (npGradient v t) ((1/100) * maxAbsList (npGradient v t)) t90 k)) := by
  refine ⟨?_, ?_, ?_⟩
  · intro h
    unfold settlingTime
    rw [h]
  · intro i90 t90 h hng
    unfold settlingTime
    rw [h]
    show (if 0 < maxAbsList (npGradient v t) then
        settlingSearch t (npGradient v t) ((1/100) * maxAbsList (npGradient v t)) t90
      else none) = none
    rw [if_neg hng]
  · intro i90 t90 h hpos
    constructor
    · intro s
      unfold settlingTime
      rw [h]
      show (if 0 < maxAbsList (npGradient v t) then
          settlingSearch t (npGradient v t) ((1/100) * maxAbsList (npGradient v t)) t90
        else none) = some s ↔ _
      rw [if_pos hpos]
      exact settlingSearch_some_iff t (npGradient v t) ((1/100) * maxAbsList (npGradient v t)) t90 s
    · unfold settlingTime
      rw [h]
      show (if 0 < maxAbsList (npGradient v t) then
          settlingSearch t (npGradient v t) ((1/100) * maxAbsList (npGradient v t)) t90
        else none) = none ↔ _
      rw [if_pos hpos]
      exact settlingSearch_none_iff t (npGradient v t) ((1/100) * maxAbsList (npGradient v t)) t90

/-- C4 witness: a step trace settling at the third sample. -/

theorem C4_witness :
    settlingTime [(0 : ℚ), 1, 2, 3, 4, 5, 6, 7] [(0 : ℚ), 10, 10, 10, 10, 10, 10, 10] =
      some (11/10) := by
  have hgrad : npGradient [(0 : ℚ), 10, 10, 10, 10, 10, 10, 10] [(0 : ℚ), 1, 2, 3, 4, 5, 6, 7] =
      [10, 5, 0, 0, 0, 0, 0, 0] := by
    norm_num [npGradient, List.range_succ, gradAt]
  have hmax : maxAbsList ([10, 5, 0, 0, 0, 0, 0, 0] : List ℚ) = 10 := by
    norm_num [maxAbsList, maxList]
  have hcross : cross90 [(0 : ℚ), 1, 2, 3, 4, 5, 6, 7] [(0 : ℚ), 10, 10, 10, 10, 10, 10, 10] =
      some (0, 9/10) := by
    norm_num [cross90, crossHigh, crossLow, findCross, vThresh, vLow, vHigh, swingQ,
      minList, maxList, scanFirst, crossCondB, interp2]
  have hpos : 0 < maxAbsList (npGradient [(0 : ℚ), 10, 10, 10, 10, 10, 10, 10]
      [(0 : ℚ), 1, 2, 3, 4, 5, 6, 7]) := by
    rw [hgrad, hmax]
    norm_num
  have h := (C4_thm [(0 : ℚ), 1, 2, 3, 4, 5, 6, 7] [(0 : ℚ), 10, 10, 10, 10, 10, 10, 10]).2.2
    0 (9/10) hcross hpos
  refine (h.1 (11/10)).mpr ⟨2, by norm_num, ?_, ?_, by norm_num⟩
  · rw [hgrad, hmax]
    constructor
    · norm_num
    · intro g hg
      norm_num at hg
      rw [hg]
      norm_num
  · intro m hm
    rw [hgrad, hmax]
    interval_cases m
    · rintro ⟨hc1, -⟩
      norm_num at hc1
    · rintro ⟨-, hc2⟩
      have := hc2 5 (by norm_num)
      norm_num at this

theorem minList_eq_of_strict {v : List ℚ} (hne : v ≠ []) (hv : StrictIncr v) :
    minList v = v.getD 0 0 := by
  have hpos : 0 < v.length := List.length_pos.mpr hne
  obtain ⟨k, hk, hkeq⟩ := List.mem_iff_getElem.mp (minList_mem hne)
  have h0mem : v.getD 0 0 ∈ v := by
    rw [List.getD_eq_getElem v 0 hpos]
    exact List.getElem_mem hpos
  rcases Nat.eq_zero_or_pos k with h0 | hkpos
  · subst h0
    rw [← List.getD_eq_getElem v 0 hk] at hkeq
    exact hkeq.symm
  · exfalso
    have hlt : v.getD 0 0 < v.getD k 0 := hv k hk 0 hkpos
    have hle : minList v ≤ v.getD 0 0 := minList_le _ h0mem
    rw [← List.getD_eq_getElem v 0 hk] at hkeq
    rw [hkeq] at hlt
    linarith

theorem maxList_eq_of_strict {v : List ℚ} (hne : v ≠ []) (hv : StrictIncr v) :
    maxList v = v.getD (v.length - 1) 0 := by
  have hpos : 0 < v.length := List.length_pos.mpr hne
  obtain ⟨k, hk, hkeq⟩ := List.mem_iff_getElem.mp (maxList_mem hne)
  have hlmem : v.getD (v.length - 1) 0 ∈ v := by
    rw [List.getD_eq_getElem v 0 (by omega)]
    exact List.getElem_mem (by omega)
  rcases Nat.lt_or_ge k (v.length - 1) with hklt | hkge
  · exfalso
    have hlt : v.getD k 0 < v.getD (v.length - 1) 0 := hv (v.length - 1) (by omega) k hklt
    have hle : v.getD (v.length - 1) 0 ≤ maxList v := maxList_ge _ hlmem
    rw [← List.getD_eq_getElem v 0 hk] at hkeq
    rw [hkeq] at hlt
    linarith
  · have hkeq2 : k = v.length - 1 := by omega
    subst hkeq2
    rw [← List.getD_eq_getElem v 0 hk] at hkeq
    exact hkeq.symm

/-- A threshold bracketed between the start sample and the strictly
larger last sample is crossed by some sample pair at or after the
start. -/

theorem exists_bracket (v : List ℚ) (thr : ℚ) :
    ∀ d s, d = v.length - 1 - s → s + 1 < v.length → v.getD s 0 ≤ thr →
      thr < v.getD (v.length - 1) 0 →
      ∃ i, s ≤ i ∧ i + 1 < v.length ∧ v.getD i 0 ≤ thr ∧ thr ≤ v.getD (i + 1) 0 := by
  intro d
  induction d with
  | zero =>
    intro s hd hs _ _
    omega
  | succ d ih =>
    intro s hd hs hlo hhi
    by_cases hnext : thr ≤ v.getD (s + 1) 0
    · exact ⟨s, le_refl s, hs, hlo, hnext⟩
    · push_neg at hnext
      have hs1 : s + 1 + 1 < v.length := by
        rcases Nat.lt_or_ge (s + 1 + 1) v.length with h | h
        · exact h
        · exfalso
          have heq : s + 1 = v.length - 1 := by omega
          rw [heq] at hnext
          linarith
      obtain ⟨i, h1, h2, h3, h4⟩ := ih (s + 1) (by omega) hs1 (le_of_lt hnext) hhi
      exact ⟨i, by omega, h2, h3, h4⟩

/-- Existence of a rising-edge crossing when the threshold is bracketed
between the start sample and the last sample. -/

theorem findCross_exists (v t : List ℚ) (thr : ℚ) (s : Nat)
    (hs : s + 1 < v.length) (hlo : v.getD s 0 ≤ thr)
    (hhi : thr < v.getD (v.length - 1) 0) :
    ∃ i τ, findCross v t thr s = some (i, τ) := by
  obtain ⟨i, h1, h2, h3, h4⟩ := exists_bracket v thr (v.length - 1 - s) s rfl hs hlo hhi
  cases hfc : findCross v t thr s with
  | none =>
    rw [findCross_none_iff] at hfc
    exact absurd ⟨h3, h4⟩ (hfc i h1 h2)
  | some p =>
    obtain ⟨i2, τ⟩ := p
    exact ⟨i2, τ, rfl⟩

/-- Reduction of the slew-rate guard once both crossings are known. -/

theorem srPair_eq (t v : List ℚ) (pl ph : ℚ) {il ih : Nat} {τl τh : ℚ}
    (hcl : crossLow t v pl = some (il, τl)) (hch : crossHigh t v pl ph = some (ih, τh)) :
    srPair t v pl ph =
      if τl < τh then some ((vThresh v ph - vThresh v pl) / (τh - τl)) else none := by
  unfold srPair
  rw [hcl, hch]

/-- On a strictly rising trace with strictly increasing time both
crossings of any interior threshold pair exist, the interpolated
crossing times are strictly ordered, and the slew rate is a strictly
positive rational. -/

theorem srPair_of_strict (t v : List ℚ) (pl ph : ℚ)
    (hlen : t.length = v.length) (h2 : 2 ≤ v.length)
    (hv : StrictIncr v) (ht : StrictIncr t)
    (hpl : 0 < pl) (hplph : pl < ph) (hph : ph < 1) :
    ∃ il τl ih τh, crossLow t v pl = some (il, τl) ∧
      crossHigh t v pl ph = some (ih, τh) ∧ τl < τh ∧
      ∃ q, srPair t v pl ph = some q ∧ 0 < q := by
  have hne : v ≠ [] := by
    intro h
    rw [h] at h2
    simp at h2
  have hv0last : v.getD 0 0 < v.getD (v.length - 1) 0 := hv (v.length - 1) (by omega) 0 (by omega)
  have hmin : vLow v = v.getD 0 0 := minList_eq_of_strict hne hv
  have hmax : vHigh v = v.getD (v.length - 1) 0 := maxList_eq_of_strict hne hv
  have hswing : 0 < swingQ v := by
    unfold swingQ
    rw [hmin, hmax]
    linarith
  have h_l0 : v.getD 0 0 < vThresh v pl := by
    unfold vThresh
    rw [hmin]
    nlinarith
  have h_lh : vThresh v pl < vThresh v ph := by
    unfold vThresh
    nlinarith
  have h_hlast : vThresh v ph < v.getD (v.length - 1) 0 := by
    unfold vThresh swingQ
    rw [hmin, hmax]
    nlinarith
  -- lower crossing exists
  obtain ⟨il, τl, hcl⟩ := findCross_exists v t (vThresh v pl) 0 (by omega)
    (le_of_lt h_l0) (lt_trans h_lh h_hlast)
  obtain ⟨hil0, hil2, hcondl, hminl, hτl⟩ :=
    (findCross_some_iff v t (vThresh v pl) 0 il τl).mp hcl
  -- upper crossing exists, resumed at the lower index
  obtain ⟨ih, τh, hch0⟩ := findCross_exists v t (vThresh v ph) il hil2
    (le_trans hcondl.1 (le_of_lt h_lh)) h_hlast
  obtain ⟨hih1, hih2, hcondh, hminh, hτh⟩ :=
    (findCross_some_iff v t (vThresh v ph) il ih τh).mp hch0
  have hch : crossHigh t v pl ph = some (ih, τh) := by
    unfold crossHigh crossLow
    rw [hcl]
    exact hch0
  -- adjacent strictness
  have hadjv : ∀ i, i + 1 < v.length → v.getD i 0 < v.getD (i + 1) 0 := by
    intro i hi
    exact hv (i + 1) hi i (by omega)
  have hadjt : ∀ i, i + 1 < v.length → t.getD i 0 < t.getD (i + 1) 0 := by
    intro i hi
    exact ht (i + 1) (by omega) i (by omega)
  -- the interpolated times are strictly ordered
  have hτlτh : τl < τh := by
    rcases eq_or_lt_of_le hih1 with he | hlt
    · subst he
      rw [hτl, hτh]
      exact interp2_lt_interp2 (hadjv il hil2) (hadjt il hil2) h_lh
    · have hvih : v.getD ih 0 < vThresh v ph := by
        have hm := hminh (ih - 1) (by omega) (by omega)
        have hprev : v.getD (ih - 1) 0 ≤ vThresh v ph := by
          have hs : v.getD (ih - 1) 0 < v.getD ih 0 := by
            have := hadjv (ih - 1) (by omega)
            rw [show ih - 1 + 1 = ih by omega] at this
            exact this
          exact le_trans (le_of_lt hs) hcondh.1
        by_contra hcon
        push_neg at hcon
        apply hm
        refine ⟨hprev, ?_⟩
        rw [show ih - 1 + 1 = ih by omega]
        exact hcon
      have h1 : t.getD ih 0 < τh := by
        rw [hτh]
        exact interp2_gt_left (hadjv ih hih2) hvih (hadjt ih hih2)
      have h2' : τl ≤ t.getD (il + 1) 0 := by
        rw [hτl]
        exact interp2_le_right hcondl.1 hcondl.2 (le_of_lt (hadjt il hil2))
      have h3 : t.getD (il + 1) 0 ≤ t.getD ih 0 := by
        rcases eq_or_lt_of_le (show il + 1 ≤ ih by omega) with he2 | hlt2
        · rw [he2]
        · exact le_of_lt (ht ih (by omega) (il + 1) hlt2)
      linarith
  refine ⟨il, τl, ih, τh, hcl, hch, hτlτh, ?_⟩
  rw [srPair_eq t v pl ph hcl hch, if_pos hτlτh]
  refine ⟨_, rfl, ?_⟩
  apply div_pos
  · linarith
  · linarith

/-- C5: for every strictly monotonically rising trace (voltage strictly
increasing, time strictly increasing, at least 2 samples) the transient
engine finds both crossings, t90 is strictly after t10, and sr_90_10 is
a (finite) strictly positive number. -/

theorem C5_thm (t v : List ℚ) (hlen : t.length = v.length) (h2 : 2 ≤ v.length)
    (hv : StrictIncr v) (ht : StrictIncr t) :
    ∃ i10 t10 i90 t90, cross10 t v = some (i10, t10) ∧ cross90 t v = some (i90, t90) ∧
      t10 < t90 ∧ ∃ q, sr9010 t v = some q ∧ 0 < q := by
  obtain ⟨il, τl, ih, τh, hcl, hch, hlt, q, hsr, hq⟩ :=
    srPair_of_strict t v (1/10) (9/10) hlen h2 hv ht (by norm_num) (by norm_num) (by norm_num)
  exact ⟨il, τl, ih, τh, hcl, hch, hlt, q, hsr, hq⟩

/-- C5 witness on the strictly rising ramp t = v = [0,1,2,3,4]. -/

theorem C5_witness :
    ∃ i10 t10 i90 t90,
      cross10 [(0 : ℚ), 1, 2, 3, 4] [(0 : ℚ), 1, 2, 3, 4] = some (i10, t10) ∧
      cross90 [(0 : ℚ), 1, 2, 3, 4] [(0 : ℚ), 1, 2, 3, 4] = some (i90, t90) ∧
      t10 < t90 ∧
      ∃ q, sr9010 [(0 : ℚ), 1, 2, 3, 4] [(0 : ℚ), 1, 2, 3, 4] = some q ∧ 0 < q :=
  C5_thm [0, 1, 2, 3, 4] [0, 1, 2, 3, 4] rfl (by norm_num) (by decide) (by decide)

/-- Every slew rate the engine can return is strictly positive: a zero
swing forces both crossings onto the degenerate time `time_arr[1]`,
failing the `t_high > t_low` guard, and a positive swing makes both the
numerator and the guarded denominator positive. -/

theorem srPair_none_or_pos (t v : List ℚ) (pl ph : ℚ) (hplph : pl < ph) :
    srPair t v pl ph = none ∨ ∃ q, srPair t v pl ph = some q ∧ 0 < q := by
  cases hcl : crossLow t v pl with
  | none =>
    left
    unfold srPair
    rw [hcl]
  | some pil =>
    obtain ⟨il, τl⟩ := pil
    cases hch : crossHigh t v pl ph with
    | none =>
      left
      unfold srPair
      rw [hcl, hch]
    | some pih =>
      obtain ⟨ih, τh⟩ := pih
      rw [srPair_eq t v pl ph hcl hch]
      by_cases hlt : τl < τh
      · right
        refine ⟨_, by rw [if_pos hlt], ?_⟩
        have hil2 : il + 1 < v.length :=
          ((findCross_some_iff v t (vThresh v pl) 0 il τl).mp hcl).2.1
        have h2 : 2 ≤ v.length := by omega
        have hne : v ≠ [] := by
          intro h
          rw [h] at hil2
          simp at hil2
        have hsw0 : 0 ≤ swingQ v := by
          unfold swingQ vLow vHigh
          linarith [minList_le_maxList hne]
        rcases eq_or_lt_of_le hsw0 with heq | hpos2
        · exfalso
          have hall : ∀ a ∈ v, a = vLow v := by
            intro a ha
            have ha1 := minList_le a ha
            have ha2 := maxList_ge a ha
            have hhl : vHigh v = vLow v := by
              unfold swingQ at heq
              linarith
            unfold vLow
            unfold vHigh at hhl
            unfold vLow at hhl
            linarith
          have hcl0 : crossLow t v pl = some (0, t.getD 1 0) := by
            unfold crossLow
            rw [vThresh_of_all_eq hne hall pl]
            exact findCross_of_all_eq t h2 hall
          rw [hcl] at hcl0
          have hil : il = 0 := by
            have := congrArg (fun o => Option.map Prod.fst o) hcl0
            simpa using this
          have hτl1 : τl = t.getD 1 0 := by
            have := congrArg (fun o => Option.map Prod.snd o) hcl0
            simpa using this
          have hch0 : crossHigh t v pl ph = some (0, t.getD 1 0) := by
            unfold crossHigh
            rw [hcl, hil]
            rw [vThresh_of_all_eq hne hall ph]
            exact findCross_of_all_eq t h2 hall
          rw [hch] at hch0
          have hτh1 : τh = t.getD 1 0 := by
            have := congrArg (fun o => Option.map Prod.snd o) hch0
            simpa using this
          rw [hτl1, hτh1] at hlt
          exact lt_irrefl _ hlt
        · have hnum : 0 < vThresh v ph - vThresh v pl := by
            unfold vThresh
            nlinarith
          exact div_pos hnum (by linarith)
      · left
        rw [if_neg hlt]

/-- With non-decreasing time the resumed second-crossing search can
only land at or after the first crossing, and the interpolated upper
crossing time is at least the lower one. -/

theorem crossHigh_le (t v : List ℚ) (pl ph : ℚ) (hlen : t.length = v.length)
    (ht : MonoNonDec t) (hplph : pl ≤ ph) {il ih : Nat} {τl τh : ℚ}
    (hcl : crossLow t v pl = some (il, τl)) (hch : crossHigh t v pl ph = some (ih, τh)) :
    il ≤ ih ∧ τl ≤ τh := by
  unfold crossHigh at hch
  rw [hcl] at hch
  obtain ⟨hil0, hil2, hcondl, hminl, hτl⟩ :=
    (findCross_some_iff v t (vThresh v pl) 0 il τl).mp hcl
  obtain ⟨hih1, hih2, hcondh, hminh, hτh⟩ :=
    (findCross_some_iff v t (vThresh v ph) il ih τh).mp hch
  refine ⟨hih1, ?_⟩
  have hne : v ≠ [] := by
    intro h
    rw [h] at hil2
    simp at hil2
  have hthl_le : vThresh v pl ≤ vThresh v ph := by
    have hsw0 : 0 ≤ swingQ v := by
      unfold swingQ vLow vHigh
      linarith [minList_le_maxList hne]
    unfold vThresh
    nlinarith
  have htadj : ∀ i, i + 1 < v.length → t.getD i 0 ≤ t.getD (i + 1) 0 := by
    intro i hi
    exact ht (i + 1) (by omega) i (by omega)
  rcases eq_or_lt_of_le hih1 with he | hlt
  · subst he
    rw [hτl, hτh]
    exact interp2_le_interp2 (le_trans hcondl.1 hcondl.2) (htadj il hil2) hthl_le
  · have h1 : τl ≤ t.getD (il + 1) 0 := by
      rw [hτl]
      exact interp2_le_right hcondl.1 hcondl.2 (htadj il hil2)
    have h2 : t.getD (il + 1) 0 ≤ t.getD ih 0 := ht ih (by omega) (il + 1) (by omega)
    have h3 : t.getD ih 0 ≤ τh := by
      rw [hτh]
      exact interp2_ge_left hcondh.1 hcondh.2 (htadj ih hih2)
    linarith

/-- C10: for every trace with non-decreasing time both resumed searches
satisfy t90 >= t10 and t80 >= t20, and each slew rate the engine
returns is either NaN or strictly positive - never zero, negative (and
the guarded subtraction is nonzero whenever the division happens, the
exact-arithmetic reading of "never infinite"). -/

theorem C10_thm (t v : List ℚ) (hlen : t.length = v.length) (ht : MonoNonDec t) :
    (∀ i10 t10 i90 t90, cross10 t v = some (i10, t10) → cross90 t v = some (i90, t90) →
        i10 ≤ i90 ∧ t10 ≤ t90)
    ∧ (∀ i20 t20 i80 t80, cross20 t v = some (i20, t20) → cross80 t v = some (i80, t80) →
        i20 ≤ i80 ∧ t20 ≤ t80)
    ∧ (sr9010 t v = none ∨ ∃ q, sr9010 t v = some q ∧ 0 < q)
    ∧ (sr8020 t v = none ∨ ∃ q, sr8020 t v = some q ∧ 0 < q) := by
  refine ⟨?_, ?_, ?_, ?_⟩
  · intro i10 τ10 i90 τ90 h1 h2
    exact crossHigh_le t v (1/10) (9/10) hlen ht (by norm_num) h1 h2
  · intro i20 τ20 i80 τ80 h1 h2
    exact crossHigh_le t v (2/10) (8/10) hlen ht (by norm_num) h1 h2
  · exact srPair_none_or_pos t v (1/10) (9/10) (by norm_num)
  · exact srPair_none_or_pos t v (2/10) (8/10) (by norm_num)

/-- C10 witness on the ramp t = v = [0,1,2,3,4]. -/

theorem C10_witness :
    (∀ i10 t10 i90 t90,
        cross10 [(0 : ℚ), 1, 2, 3, 4] [(0 : ℚ), 1, 2, 3, 4] = some (i10, t10) →
        cross90 [(0 : ℚ), 1, 2, 3, 4] [(0 : ℚ), 1, 2, 3, 4] = some (i90, t90) →
        i10 ≤ i90 ∧ t10 ≤ t90)
    ∧ (∀ i20 t20 i80 t80,
        cross20 [(0 : ℚ), 1, 2, 3, 4] [(0 : ℚ), 1, 2, 3, 4] = some (i20, t20) →
        cross80 [(0 : ℚ), 1, 2, 3, 4] [(0 : ℚ), 1, 2, 3, 4] = some (i80, t80) →
        i20 ≤ i80 ∧ t20 ≤ t80)
    ∧ (sr9010 [(0 : ℚ), 1, 2, 3, 4] [(0 : ℚ), 1, 2, 3, 4] = none ∨
        ∃ q, sr9010 [(0 : ℚ), 1, 2, 3, 4] [(0 : ℚ), 1, 2, 3, 4] = some q ∧ 0 < q)
    ∧ (sr8020 [(0 : ℚ), 1, 2, 3, 4] [(0 : ℚ), 1, 2, 3, 4] = none ∨
        ∃ q, sr8020 [(0 : ℚ), 1, 2, 3, 4] [(0 : ℚ), 1, 2, 3, 4] = some q ∧ 0 < q) :=
  C10_thm [0, 1, 2, 3, 4] [0, 1, 2, 3, 4] rfl (by decide)

/-- C6 (amended): the spectral magnitude is
`20*log10(|X| + epsilon)` bin by bin with epsilon =
`np.finfo(float).eps` = 2 ^ (-52), the double-precision machine
epsilon (not the smallest representable positive float), and the
zero-frequency (DC) bin is then dropped from both the frequency and
the magnitude arrays. -/

theorem C6_thm (t v : List ℚ) :
    magFull t v = (List.range (fftLen t / 2 + 1)).map
        (fun k => 20 * Real.logb 10 (Complex.abs (fftNorm t v k) + (fft_eps : ℚ)))
    ∧ magDropDC t v = (magFull t v).drop 1
    ∧ freqDropDC t = (freqFull t).drop 1
    ∧ fft_eps = 1 / 2 ^ 52 :=
  ⟨rfl, rfl, rfl, rfl⟩

/-- C6 counterexample: at the concrete absolute spectrum value 0 the
magnitude computed by the code (with the machine epsilon 2 ^ (-52))
differs from the magnitude the claim prescribes (with the smallest
representable positive float 2 ^ (-1074)): the claimed epsilon is not
the one in the code. -/

theorem C6_counterexample :
    magPoint 0 ≠ 20 * Real.logb 10 (0 + (smallest_pos_double : ℚ)) := by
  have hq1 : (0 : ℚ) < smallest_pos_double := by norm_num [smallest_pos_double]
  have hq2 : smallest_pos_double < fft_eps := by norm_num [smallest_pos_double, fft_eps]
  have h1 : (0 : ℝ) < ((smallest_pos_double : ℚ) : ℝ) := by exact_mod_cast hq1
  have h2 : ((smallest_pos_double : ℚ) : ℝ) < ((fft_eps : ℚ) : ℝ) := by exact_mod_cast hq2
  have hlog : Real.logb 10 ((smallest_pos_double : ℚ) : ℝ) <
      Real.logb 10 ((fft_eps : ℚ) : ℝ) :=
    Real.logb_lt_logb (by norm_num) h1 h2
  have hmul : 20 * Real.logb 10 ((smallest_pos_double : ℚ) : ℝ) <
      20 * Real.logb 10 ((fft_eps : ℚ) : ℝ) :=
    mul_lt_mul_of_pos_left hlog (by norm_num)
  unfold magPoint
  rw [zero_add, zero_add]
  exact ne_of_gt hmul

